import Mathlib

/-!
Verification development for the AI coding-agent subsystem of a web IDE.

The subsystem under study consists of:
* the Sandbox Guard (`isPathSafe`, `isCommandSafe`),
* the Tool Executor (`readFile`, `writeFileTool`, `applyDiff`, `runCommand`,
  `listFiles`, `searchCode`, `executeAction`, `executeActions`),
* the Model Gateway (`pickModel` and the chat-entry model choice),
* the Agent Loop (`runAgentLoop` driving model calls and tool dispatch while
  emitting an ordered event stream).

The definitions below are shallow embeddings of the TypeScript source.
JavaScript strings are modelled as Lean `String`; the Node `path` module's
POSIX `normalize`/`resolve` are modelled explicitly (trailing-slash
preservation, which none of the proved properties depend on, is not
modelled); the filesystem is modelled as an association list from resolved
paths to file contents plus a map from resolved directory paths to directory
trees; shell execution and code search are external oracles supplied as
function parameters.  JavaScript exceptions never escape the tool layer in
the source (every tool converts them to failure results), so tool functions
are total Lean functions returning a `ToolResult`.
-/

set_option maxRecDepth 100000

namespace CodeAgent

/-! ## JavaScript string primitives -/

/-- First occurrence of `pat` in a character list: returns the characters
before the match and the characters after the matched pattern.  Mirrors the
search performed by JavaScript `String.prototype.indexOf` (an empty pattern
matches at position 0, as in JavaScript). -/
def firstOcc (pat : List Char) : List Char → Option (List Char × List Char)
  | [] => if pat.isEmpty then some ([], []) else none
  | c :: rest =>
    if pat.isPrefixOf (c :: rest) then some ([], (c :: rest).drop pat.length)
    else (firstOcc pat rest).map fun p => (c :: p.1, p.2)

/-- JavaScript `s.includes(sub)`. -/
def jsIncludes (s sub : String) : Bool :=
  (firstOcc sub.toList s.toList).isSome

/-- JavaScript `s.replace(pat, rep)` with a string pattern: replaces only the
first occurrence (or returns `s` unchanged when `pat` does not occur). -/
def replaceFirst (s pat rep : String) : String :=
  match firstOcc pat.toList s.toList with
  | none => s
  | some (before, after) => ⟨before ++ rep.toList ++ after⟩

/-- JavaScript `s.toLowerCase()` (the commands checked are ASCII, where this
agrees with `Char.toLower`). -/
def jsToLower (s : String) : String := ⟨s.toList.map Char.toLower⟩

/-- JavaScript `s.startsWith(pre)`. -/
def jsStartsWith (s pre : String) : Bool := pre.toList.isPrefixOf s.toList

/-- Split a character list at `/` separators, keeping empty pieces, as
JavaScript `split("/")` does. -/
def splitSlashAux : List Char → List Char → List (List Char)
  | [], cur => [cur.reverse]
  | c :: rest, cur =>
    if c = '/' then cur.reverse :: splitSlashAux rest []
    else splitSlashAux rest (c :: cur)

/-- JavaScript `p.split("/")`. -/
def splitSlash (p : String) : List String :=
  (splitSlashAux p.toList []).map (fun l => ⟨l⟩)

/-- Join strings with a separator (`Array.prototype.join`). -/
def joinWith (sep : String) : List String → String
  | [] => ""
  | [x] => x
  | x :: y :: rest => x ++ sep ++ joinWith sep (y :: rest)

/-- Length of JavaScript `s.split("\n")`: one more than the number of
newline characters. -/
def jsSplitNewlineLen (s : String) : Nat := s.toList.count '\n' + 1

/-- JavaScript `x || d` for an optional string `x`: the empty string is
falsy, so it also falls back to the default. -/
def jsOrElse (x : Option String) (d : String) : String :=
  match x with
  | some s => if s = "" then d else s
  | none => d

/-! ## Node `path` module (POSIX), as used by the tool executor -/

/-- One step of segment normalization: `.` and empty segments are dropped,
`..` pops the previous segment (or is kept at the front of a relative path,
or dropped at the root of an absolute path).  The accumulator holds the
output segments in reverse order. -/
def normStep (isAbs : Bool) (acc : List String) (seg : String) : List String :=
  if seg = "" ∨ seg = "." then acc
  else if seg = ".." then
    match acc with
    | [] => if isAbs then [] else [".."]
    | top :: rest => if top = ".." then seg :: acc else rest
  else seg :: acc

/-- Model of Node `path.normalize` (POSIX): collapses `.`, `..` and repeated
separators. -/
def pathNormalize (p : String) : String :=
  if p = "" then "." else
  let isAbs := jsStartsWith p "/"
  let segs := splitSlash p
  let out := (segs.foldl (normStep isAbs) []).reverse
  let body := joinWith "/" out
  if isAbs then (if body = "" then "/" else "/" ++ body)
  else (if body = "" then "." else body)

/-- Model of Node `path.resolve(root, p)` for an absolute `root`: an absolute
`p` wins, otherwise `p` is joined onto `root`; the result is normalized. -/
def pathResolve (root p : String) : String :=
  if jsStartsWith p "/" then pathNormalize p
  else pathNormalize (root ++ "/" ++ p)

/-! ## Sandbox Guard -/

/-- Deny-listed path segments (`BLOCKED_PATHS` in the source). -/
def BLOCKED_PATHS : List String := ["node_modules", ".git", ".env", "secrets"]

/-- Extension allow-list for writes (`ALLOWED_EXTENSIONS` in the source). -/
def ALLOWED_EXTENSIONS : List String :=
  [".ts", ".tsx", ".js", ".jsx", ".json", ".css", ".html", ".md", ".txt", ".sql"]

/-- Maximum line-deletion threshold for `edit_file` (`MAX_DELETE_LINES`). -/
def MAX_DELETE_LINES : Nat := 50

/-- The Sandbox Guard path check (`isPathSafe` in the source): normalize the
path, resolve it against the project root, reject when the resolved string
does not start with the root, then reject when the normalized path contains
a deny-listed substring. -/
def isPathSafe (root filePath : String) : Bool :=
  let normalized := pathNormalize filePath
  let resolved := pathResolve root normalized
  if !(jsStartsWith resolved root) then false
  else if BLOCKED_PATHS.any (fun b => jsIncludes normalized b) then false
  else true

/-- Whether `p` resolves outside the project root `root` (i.e. the resolved
path is neither `root` itself nor below `root ++ "/"`).  This is the
property the specification attributes to the path check. -/
def resolvesOutsideRoot (root p : String) : Bool :=
  let r := pathResolve root (pathNormalize p)
  !(r = root ∨ jsStartsWith r (root ++ "/"))

/-- The command deny-list (`blockedCommands` in the source). -/
def blockedCommands : List String :=
  ["rm -rf", "rm -r", "sudo", "chmod", "chown", "mv /", "cp /", "> /",
   "curl | bash", "wget | bash", "eval", "exec", "DROP TABLE",
   "DROP DATABASE", "DELETE FROM", "TRUNCATE"]

/-- The Sandbox Guard command check (`isCommandSafe` in the source):
case-insensitive deny-list substring test. -/
def isCommandSafe (command : String) : Bool :=
  let lowerCmd := jsToLower command
  !(blockedCommands.any fun blocked => jsIncludes lowerCmd (jsToLower blocked))

/-! ## Node `path.extname` / `path.basename` -/

/-- Model of Node `path.basename` (POSIX): trailing separators are dropped
and the part after the last remaining separator is returned. -/
def basenameOf (p : String) : String :=
  let cs := p.toList
  let trimmed := (cs.reverse.dropWhile (fun c => c = '/')).reverse
  ⟨(trimmed.reverse.takeWhile (fun c => c ≠ '/')).reverse⟩

/-- Index of the last `.` in a character list. -/
def lastDotIdx (cs : List Char) : Option Nat :=
  match cs.reverse.findIdx? (fun c => c = '.') with
  | none => none
  | some j => some (cs.length - 1 - j)

/-- Model of Node `path.extname` (POSIX): the extension starts at the last
`.` of the basename, unless that `.` is the basename's first character (a
dotfile) or there is no `.` at all, in which case the extension is empty. -/
def extnameOf (p : String) : String :=
  let b := (basenameOf p).toList
  match lastDotIdx b with
  | none => ""
  | some 0 => ""
  | some i => ⟨b.drop i⟩

/-! ## Tool Executor: data model -/

/-- The uniform tool result shape (`ToolResult` in the source). -/
structure ToolResult where
  success : Bool
  output : Option String := none
  error : Option String := none
deriving DecidableEq, Repr

/-- An agent action (`AgentAction` in the source): a type tag plus optional
arguments.  The type is a plain string, as in the source, where parsed model
output can carry any tag. -/
structure AgentAction where
  type : String
  path : Option String := none
  content : Option String := none
  search : Option String := none
  replace : Option String := none
  command : Option String := none
  query : Option String := none
deriving DecidableEq, Repr

/-- Outcome of spawning a shell command (oracle for `child_process.exec`). -/
inductive ExecOut
  | ok (stdout stderr : String)
  | err (msg : String)
deriving DecidableEq, Repr

/-- Outcome of the grep shell-out used by `search_code`: output, a "no
matches" exit (code 1), or any other failure. -/
inductive SearchOut
  | out (stdout : String)
  | errCode1
  | errOther
deriving DecidableEq, Repr

/-- A directory-tree entry, as the recursive walk in `listFiles` observes it
through `fs.readdir(..., { withFileTypes: true })`. -/
inductive FsEntry
  | file (name : String)
  | dir (name : String) (children : List FsEntry)

/-- Name of a directory entry. -/
def entryName : FsEntry → String
  | .file n => n
  | .dir n _ => n

/-- Association-list read of the modelled file store. -/
def fsLookup (fs : List (String × String)) (k : String) : Option String :=
  (fs.find? (fun kv => kv.1 = k)).map (fun kv => kv.2)

/-- Association-list overwrite of the modelled file store (Node
`fs.writeFile` semantics: create or replace). -/
def fsSet : List (String × String) → String → String → List (String × String)
  | [], k, v => [(k, v)]
  | (k', v') :: rest, k, v =>
    if k' = k then (k, v) :: rest else (k', v') :: fsSet rest k v

/-- Directory lookup of the modelled directory store. -/
def dirsLookup (dirs : List (String × List FsEntry)) (k : String) :
    Option (List FsEntry) :=
  (dirs.find? (fun kv => kv.1 = k)).map (fun kv => kv.2)

/-- The world the tools act on: the project root (`PROJECT_ROOT`, i.e.
`process.cwd()` in the source), the file store, the directory store, and the
shell / search oracles. -/
structure World where
  root : String
  fs : List (String × String)
  dirs : List (String × List FsEntry)
  exec : String → ExecOut
  search : String → SearchOut

/-! ## Tool Executor: the six tools -/

/-- The failure result returned when the Sandbox Guard rejects a path. -/
def accessDenied : ToolResult :=
  { success := false, output := none, error := some "Access denied: path not allowed" }

/-- A tool invoked with a missing required argument throws a `TypeError` in
the source (via the non-null assertions) which the surrounding catch
converts to a failure result; the exact `TypeError` message is abstracted. -/
def missingArgResult : ToolResult :=
  { success := false, output := none, error := some "missing required argument" }

/-- `readFile` from the source: guard check, then read the resolved path. -/
def readFile (w : World) (filePath : String) : ToolResult :=
  if !isPathSafe w.root filePath then accessDenied
  else
    match fsLookup w.fs (pathResolve w.root filePath) with
    | some content => { success := true, output := some content, error := none }
    | none =>
      { success := false, output := none, error := some ("File not found: " ++ filePath) }

/-- `writeFile` from the source: guard check, extension allow-list check
(skipped when the extension is empty, since an empty string is falsy in
JavaScript), then overwrite the resolved path.  Named `writeFileTool` to
avoid shadowing the read tool namespace. -/
def writeFileTool (w : World) (filePath content : String) : ToolResult × World :=
  if !isPathSafe w.root filePath then (accessDenied, w)
  else
    let ext := extnameOf filePath
    if ext ≠ "" ∧ ¬ ALLOWED_EXTENSIONS.contains ext then
      ({ success := false, output := none, error := some ("File type not allowed: " ++ ext) }, w)
    else
      let fullPath := pathResolve w.root filePath
      ({ success := true, output := some ("File written: " ++ filePath), error := none },
       { w with fs := fsSet w.fs fullPath content })

/-- Signed line delta between search and replace text, as the source
computes it (`search.split("\n").length - replace.split("\n").length`). -/
def deletedLinesOf (search replace : String) : Int :=
  (jsSplitNewlineLen search : Int) - (jsSplitNewlineLen replace : Int)

/-- `applyDiff` from the source (the `edit_file` tool): guard check, read,
fail when the search text is absent, fail when the line delta exceeds
`MAX_DELETE_LINES`, otherwise replace the first occurrence and write back. -/
def applyDiff (w : World) (filePath search replace : String) : ToolResult × World :=
  if !isPathSafe w.root filePath then (accessDenied, w)
  else
    let fullPath := pathResolve w.root filePath
    match fsLookup w.fs fullPath with
    | none =>
      ({ success := false, output := none,
         error := some ("Failed to apply diff: " ++ filePath) }, w)
    | some content =>
      if !jsIncludes content search then
        ({ success := false, output := none,
           error := some "Search string not found in file" }, w)
      else
        let deletedLines := deletedLinesOf search replace
        if deletedLines > (MAX_DELETE_LINES : Int) then
          ({ success := false, output := none,
             error := some ("Cannot delete more than " ++ toString MAX_DELETE_LINES ++
               " lines at once (trying to delete " ++ toString deletedLines ++ ")") }, w)
        else
          let newContent := replaceFirst content search replace
          ({ success := true, output := some ("Diff applied to: " ++ filePath), error := none },
           { w with fs := fsSet w.fs fullPath newContent })

/-- `runCommand` from the source: guard check before any spawn; the second
component records whether a process was spawned (purely observational — it
is `true` exactly on the branches where the source calls `execAsync`).  On
spawn failure the source reports `error.stderr || error.message ||
"Command failed"`, abstracted here as the oracle's message. -/
def runCommand (exec : String → ExecOut) (command : String) : ToolResult × Bool :=
  if !isCommandSafe command then
    ({ success := false, output := none,
       error := some "Command blocked for security reasons" }, false)
  else
    match exec command with
    | .ok stdout stderr =>
      ({ success := true,
         output := some (stdout ++ (if stderr ≠ "" then "\nSTDERR: " ++ stderr else "")),
         error := none }, true)
    | .err m => ({ success := false, output := none, error := some m }, true)

/-- Whether an entry name contains a deny-listed substring (the walk's
`BLOCKED_PATHS.some(b => entry.name.includes(b))`). -/
def isBlockedName (n : String) : Bool :=
  BLOCKED_PATHS.any (fun b => jsIncludes n b)

/-- The relative path of an entry (`prefix ? prefix + "/" + name : name` in
the walk; the empty prefix is falsy). -/
def relOf (pfx n : String) : String := if pfx = "" then n else pfx ++ "/" ++ n

/-- The recursive directory walk of `listFiles`: pushes each non-denied
entry (directories suffixed with `/`), recurses into a directory only while
fewer than 200 entries are collected, and stops a level as soon as 200
entries have been collected. -/
def walkFs : String → List FsEntry → List String → List String
  | _, [], files => files
  | pfx, .file n :: rest, files =>
    if isBlockedName n then walkFs pfx rest files
    else
      let files1 := files ++ [relOf pfx n]
      if files1.length ≥ 200 then files1 else walkFs pfx rest files1
  | pfx, .dir n children :: rest, files =>
    if isBlockedName n then walkFs pfx rest files
    else
      let files1 := files ++ [relOf pfx n ++ "/"]
      let files2 := if files1.length < 200 then walkFs (relOf pfx n) children files1 else files1
      if files2.length ≥ 200 then files2 else walkFs pfx rest files2

/-- Entry list produced by `listFiles` for a directory tree. -/
def listFilesEntries (t : List FsEntry) : List String := walkFs "" t []

/-- Number of entries the walk would produce with no cap: non-denied files
and directories each count once, the subtree of a denied directory is never
visited. -/
def countEntries : List FsEntry → Nat
  | [] => 0
  | .file n :: rest => (if isBlockedName n then 0 else 1) + countEntries rest
  | .dir n children :: rest =>
    (if isBlockedName n then 0 else 1 + countEntries children) + countEntries rest

/-- `listFiles` from the source: guard check, resolve, walk, join with
newlines. -/
def listFiles (w : World) (dirPath : String) : ToolResult :=
  if !isPathSafe w.root dirPath then accessDenied
  else
    match dirsLookup w.dirs (pathResolve w.root dirPath) with
    | some entries =>
      { success := true,
        output := some (joinWith "\n" (listFilesEntries entries)),
        error := none }
    | none =>
      { success := false, output := none,
        error := some ("Failed to list directory: " ++ dirPath) }

/-- `searchCode` from the source: shells out to grep; empty output or exit
code 1 is success with "No matches found", any other failure is a failed
result. -/
def searchCode (search : String → SearchOut) (query : String) : ToolResult :=
  match search query with
  | .out stdout =>
    { success := true,
      output := some (if stdout = "" then "No matches found" else stdout),
      error := none }
  | .errCode1 => { success := true, output := some "No matches found", error := none }
  | .errOther => { success := false, output := none, error := some "Search failed" }

/-! ## Tool Executor: dispatch -/

/-- `executeAction` from the source: dispatch on the action's type tag, in
the order of the source's `switch`.  Every branch returns a result value —
the source's surrounding catch converts any thrown error to a failure
result, so this function is total. -/
def executeAction (w : World) (a : AgentAction) : ToolResult × World :=
  if a.type = "read_file" then
    match a.path with
    | some p => (readFile w p, w)
    | none => (missingArgResult, w)
  else if a.type = "write_to_file" ∨ a.type = "create_file" then
    match a.path, a.content with
    | some p, some c => writeFileTool w p c
    | _, _ => (missingArgResult, w)
  else if a.type = "apply_diff" then
    match a.path, a.search, a.replace with
    | some p, some s, some r => applyDiff w p s r
    | _, _, _ => (missingArgResult, w)
  else if a.type = "run_command" then
    match a.command with
    | some c => ((runCommand w.exec c).1, w)
    | none => (missingArgResult, w)
  else if a.type = "list_files" then
    (listFiles w (jsOrElse a.path "."), w)
  else if a.type = "search_code" then
    match a.query with
    | some q => (searchCode w.search q, w)
    | none => (missingArgResult, w)
  else if a.type = "message" then
    ({ success := true, output := a.content, error := none }, w)
  else
    ({ success := false, output := none,
       error := some ("Unknown action type: " ++ a.type) }, w)

/-- Lookup of a tool-call argument by key. -/
def lookupInput (input : List (String × String)) (k : String) : Option String :=
  (input.find? (fun kv => kv.1 = k)).map (fun kv => kv.2)

/-- `mapToolToAction` from the source: maps the six model-facing tool names
to actions; any other name becomes a `message` action reporting the unknown
tool. -/
def mapToolToAction (toolName : String) (input : List (String × String)) : AgentAction :=
  if toolName = "read_file" then
    { type := "read_file", path := lookupInput input "path" }
  else if toolName = "write_file" then
    { type := "write_to_file", path := lookupInput input "path",
      content := lookupInput input "content" }
  else if toolName = "edit_file" then
    { type := "apply_diff", path := lookupInput input "path",
      search := lookupInput input "search", replace := lookupInput input "replace" }
  else if toolName = "list_files" then
    { type := "list_files", path := lookupInput input "path" }
  else if toolName = "search_code" then
    { type := "search_code", query := lookupInput input "query" }
  else if toolName = "run_command" then
    { type := "run_command", command := lookupInput input "command" }
  else
    { type := "message", content := some ("Unknown tool: " ++ toolName) }

/-- Result of a batch execution: the collected results, the final world, and
the trace of actions actually passed to `executeAction` (the trace is a
ghost observation used to state that skipped actions are never executed). -/
structure ExecBatch where
  results : List ToolResult
  world : World
  trace : List AgentAction

/-- `executeActions` from the source: run the actions in order, keep every
result, and stop after the first failed result whose action is not a
`message`. -/
def executeActions (w : World) : List AgentAction → ExecBatch
  | [] => ⟨[], w, []⟩
  | a :: rest =>
    let r := executeAction w a
    if !r.1.success ∧ a.type ≠ "message" then ⟨[r.1], r.2, [a]⟩
    else
      let o := executeActions r.2 rest
      ⟨r.1 :: o.results, o.world, a :: o.trace⟩

/-! ## Model Gateway -/

/-- The three model tiers (`MODELS` keys in the source). -/
inductive Tier
  | haiku
  | sonnet
  | opus
deriving DecidableEq, Repr

/-- The `MODELS` table: tier to API model identifier. -/
def MODELS : Tier → String
  | .haiku => "claude-haiku-4-5"
  | .sonnet => "claude-sonnet-4-5"
  | .opus => "claude-opus-4-5"

/-- Task types (`TaskType` in the source). -/
inductive TaskType
  | classify
  | chat
  | agent
  | plan
  | critic
deriving DecidableEq, Repr

/-- Caller model override (`ModelOverride` in the source). -/
inductive ModelOverride
  | auto
  | haiku
  | sonnet
  | opus
deriving DecidableEq, Repr

/-- `pickModel` from the source: a non-`auto` override wins, otherwise the
task selects the tier (classification on the light tier, chat/plan/critic on
the mid tier, the agent task on the top tier). -/
def pickModel (task : TaskType) (override : Option ModelOverride) : String :=
  match override with
  | some ModelOverride.haiku => MODELS Tier.haiku
  | some ModelOverride.sonnet => MODELS Tier.sonnet
  | some ModelOverride.opus => MODELS Tier.opus
  | _ =>
    match task with
    | .classify => MODELS Tier.haiku
    | .chat => MODELS Tier.sonnet
    | .plan => MODELS Tier.sonnet
    | .critic => MODELS Tier.sonnet
    | .agent => MODELS Tier.opus

/-- The model actually used by `streamChatResponse` (the chat-initiated
agent loop): `pickModel("agent", override)` followed by the explicit
redirect of the top tier (or an explicit opus override) to the mid tier. -/
def chatAgentModel (override : Option ModelOverride) : String :=
  let model := pickModel TaskType.agent override
  if model = MODELS Tier.opus ∨ override = some ModelOverride.opus then
    MODELS Tier.sonnet
  else model

/-! ## Agent Loop (the tool-use loop of `streamChatResponse`) -/

/-- A content block of a model response. -/
inductive CBlock
  | text (s : String)
  | toolUse (id name : String) (input : List (String × String))
deriving DecidableEq, Repr

/-- A model response: content blocks plus a stop reason. -/
structure MResponse where
  content : List CBlock
  stop_reason : String
deriving DecidableEq, Repr

/-- Whether a content block is a tool-use block. -/
def isToolUseBlock : CBlock → Bool
  | .toolUse _ _ _ => true
  | .text _ => false

/-- Whether a response contains at least one tool-use block. -/
def hasToolBlocks (r : MResponse) : Bool :=
  r.content.any isToolUseBlock

/-- One event written to the stream (one `res.write` in the source).  The
`done` event's optional flag models the `maxStepsReached` field, present
only on the final post-loop `done` event. -/
inductive SEvent
  | textEv (s : String)
  | toolUseEv (name : String) (input : List (String × String))
  | toolResultEv (name : String) (success : Bool) (error : Option String)
  | doneEv (fullContent : String) (agentSteps : Nat) (maxStepsReached : Option Bool)
  | errorEv (step : Nat)
deriving DecidableEq, Repr

/-- Accumulator for processing one response's content blocks. -/
structure StepAcc where
  hasToolUse : Bool
  fullContent : String
  events : List SEvent
  world : World

/-- Process the content blocks of one model response in order: text blocks
stream a text event and extend the accumulated content; tool-use blocks
stream a `tool_use` event, run the dispatched action through the tool
executor, and stream a `tool_result` event. -/
def processBlocks : List CBlock → StepAcc → StepAcc
  | [], acc => acc
  | .text s :: rest, acc =>
    processBlocks rest
      { acc with fullContent := acc.fullContent ++ s,
                 events := acc.events ++ [SEvent.textEv s] }
  | .toolUse _id name input :: rest, acc =>
    let action := mapToolToAction name input
    let r := executeAction acc.world action
    processBlocks rest
      { hasToolUse := true,
        fullContent := acc.fullContent,
        events := acc.events ++
          [SEvent.toolUseEv name input,
           SEvent.toolResultEv name r.1.success r.1.error],
        world := r.2 }

/-- Result of one loop run: the ordered event stream, the accumulated text,
the number of executed steps, and the final world. -/
structure LoopOut where
  events : List SEvent
  content : String
  steps : Nat
  world : World

/-- The body of `runAgentLoop`'s `while (step < MAX_AGENT_STEPS)` loop,
written with explicit fuel (`fuel = maxSteps - step` at every call).  The
model is an external nondeterministic source; since the loop's control flow
depends only on the sequence of responses, it is supplied as an oracle
indexed by the step number, returning either a response or a thrown API
error.  A thrown model call streams an `error` event and breaks; the
post-loop `done` event carries the `maxStepsReached` flag
(`step >= MAX_AGENT_STEPS`). -/
def agentLoopGo (modelFn : Nat → Except Unit MResponse) (maxSteps : Nat) :
    Nat → Nat → String → List SEvent → World → LoopOut
  | 0, step, fullContent, events, w =>
    ⟨events ++ [SEvent.doneEv fullContent step (some (decide (maxSteps ≤ step)))],
     fullContent, step, w⟩
  | fuel + 1, step, fullContent, events, w =>
    let step1 := step + 1
    match modelFn step1 with
    | .error _ =>
      ⟨(events ++ [SEvent.errorEv step1]) ++
         [SEvent.doneEv fullContent step1 (some (decide (maxSteps ≤ step1)))],
       fullContent, step1, w⟩
    | .ok resp =>
      let acc := processBlocks resp.content ⟨false, fullContent, events, w⟩
      if !acc.hasToolUse then
        ⟨acc.events ++ [SEvent.doneEv acc.fullContent step1 none],
         acc.fullContent, step1, acc.world⟩
      else if resp.stop_reason = "end_turn" then
        ⟨acc.events ++ [SEvent.doneEv acc.fullContent step1 none],
         acc.fullContent, step1, acc.world⟩
      else
        agentLoopGo modelFn maxSteps fuel step1 acc.fullContent acc.events acc.world

/-- `runAgentLoop` from the source, with the step budget (`MAX_AGENT_STEPS`,
200 in the source) as a parameter. -/
def runAgentLoop (modelFn : Nat → Except Unit MResponse) (maxSteps : Nat)
    (w : World) : LoopOut :=
  agentLoopGo modelFn maxSteps maxSteps 0 "" [] w

/-- The step budget constant of the source. -/
def MAX_AGENT_STEPS : Nat := 200

/-- An event is terminal when it is a `done` or `error` event. -/
def isTerminalEv : SEvent → Bool
  | .doneEv _ _ _ => true
  | .errorEv _ => true
  | _ => false

/-- A list of non-terminal events. -/
def noTerm (l : List SEvent) : Bool := l.all fun e => !isTerminalEv e

/-- Shape of a completed stream: some non-terminal prefix followed either by
one final `done` event, or by one `error` event and then one final `done`
event. -/
def cleanShape (l : List SEvent) : Prop :=
  ∃ pre, noTerm pre = true ∧
    ((∃ fc st b, l = pre ++ [SEvent.doneEv fc st b]) ∨
     (∃ fc st b s, l = pre ++ [SEvent.errorEv s, SEvent.doneEv fc st b]))

/-! ## Specification predicates and concrete witness inputs -/

/-- The model's response at step `s` is a successfully returned response
that contains at least one tool call and does not signal `end_turn`. -/
def toolResponseOk (modelFn : Nat → Except Unit MResponse) (s : Nat) : Prop :=
  ∃ r, modelFn s = Except.ok r ∧ hasToolBlocks r = true ∧ r.stop_reason ≠ "end_turn"

/-- The batch-execution contract: the executed trace is exactly the ordered
prefix of the action list matching the returned results; every result
before the last comes from a successful or `message` action; and when the
batch stopped early, the last returned result is a failure on a
non-`message` action. -/
def stopsAtFirstFailure (as : List AgentAction) (o : ExecBatch) : Prop :=
  o.trace = as.take o.results.length ∧
  o.results.length ≤ as.length ∧
  (∀ i, i + 1 < o.results.length →
    (o.results[i]?.map ToolResult.success = some true ∨
     as[i]?.map AgentAction.type = some "message")) ∧
  (o.results.length < as.length →
    ∃ r a, o.results.getLast? = some r ∧ as[o.results.length - 1]? = some a ∧
      r.success = false ∧ a.type ≠ "message")

/-- A world with an empty file store, used to instantiate theorems at
concrete inputs. -/
def emptyWorld : World :=
  { root := "/proj", fs := [], dirs := [],
    exec := fun _ => ExecOut.err "no shell", search := fun _ => SearchOut.errOther }

/-- A 51-line file content used to exercise the `edit_file` boundary. -/
def bigContent : String := joinWith "\n" (List.replicate 51 "a")

/-- A world holding one 51-line file. -/
def w6 : World :=
  { root := "/proj", fs := [("/proj/c.txt", bigContent)], dirs := [],
    exec := fun _ => ExecOut.err "no shell", search := fun _ => SearchOut.errOther }

/-- A flat directory tree with 201 files. -/
def bigTree : List FsEntry := List.replicate 201 (FsEntry.file "f")

/-- A `message` action. -/
def msgAction : AgentAction := { type := "message", content := some "hi" }

/-- A command action the Sandbox Guard blocks. -/
def badAction : AgentAction := { type := "run_command", command := some "sudo ls" }

/-- Three actions whose second one fails. -/
def c9Actions : List AgentAction := [msgAction, badAction, msgAction]

/-- A model oracle answering every step with one tool call. -/
def c3AllTools : Nat → Except Unit MResponse :=
  fun _ => Except.ok ⟨[CBlock.toolUse "1" "run_command" [("command", "ls")]], "tool_use"⟩

/-- A model oracle answering step 1 with one tool call and step 2 with plain
text. -/
def c3ThenStop : Nat → Except Unit MResponse :=
  fun s =>
    if s < 2 then
      Except.ok ⟨[CBlock.toolUse "1" "run_command" [("command", "ls")]], "tool_use"⟩
    else Except.ok ⟨[CBlock.text "done"], "end_turn"⟩

/-- A model oracle answering every step with one tool call but stop reason
`end_turn`. -/
def c3EndTurn : Nat → Except Unit MResponse :=
  fun _ => Except.ok ⟨[CBlock.toolUse "1" "run_command" [("command", "ls")]], "end_turn"⟩

/-- A model oracle whose every call throws. -/
def c4Err : Nat → Except Unit MResponse := fun _ => Except.error ()

/-! ## Theorems -/

/-- C1 (counterexample): the absolute path `/home/user/project2/evil.ts`
resolves outside the project root `/home/user/project`, yet `isPathSafe`
accepts it — the guard compares resolved paths with a plain string-prefix
test, so a sibling directory whose name extends the root's name passes. -/
theorem C1_counterexample :
    resolvesOutsideRoot "/home/user/project" "/home/user/project2/evil.ts" = true ∧
    isPathSafe "/home/user/project" "/home/user/project2/evil.ts" = true := by
  constructor <;> decide

/-- C1 (amended): for every path whose resolution against the project root
does not have the root as a string prefix — which includes `..` traversal
and absolute paths that do not share the root as a textual prefix — the
Sandbox Guard path check returns false. -/
theorem C1_amended_pathCheck (root p : String)
    (h : jsStartsWith (pathResolve root (pathNormalize p)) root = false) :
    isPathSafe root p = false := by
  simp [isPathSafe, h]

/-- C1 (witness): a `..` traversal escaping `/home/user/project` fails the
prefix test and is rejected. -/
theorem C1_amended_pathCheck_witness :
    jsStartsWith (pathResolve "/home/user/project" (pathNormalize "../../etc/passwd"))
        "/home/user/project" = false ∧
    isPathSafe "/home/user/project" "../../etc/passwd" = false :=
  ⟨by decide, C1_amended_pathCheck "/home/user/project" "../../etc/passwd" (by decide)⟩

/-- C2: a command containing a deny-listed substring in any letter case is
rejected by `isCommandSafe`, and `runCommand` on it returns a failed
`ToolResult` without spawning any process (the spawn flag is false and the
result does not depend on the shell oracle). -/
theorem C2_blockedCommand (cmd b : String) (exec : String → ExecOut)
    (hmem : b ∈ blockedCommands)
    (hsub : jsIncludes (jsToLower cmd) (jsToLower b) = true) :
    isCommandSafe cmd = false ∧
    runCommand exec cmd =
      ({ success := false, output := none,
         error := some "Command blocked for security reasons" }, false) := by
  have hany : (blockedCommands.any fun blocked =>
      jsIncludes (jsToLower cmd) (jsToLower blocked)) = true :=
    List.any_eq_true.mpr ⟨b, hmem, hsub⟩
  have hun : isCommandSafe cmd = false := by simp [isCommandSafe, hany]
  exact ⟨hun, by simp [runCommand, hun]⟩

/-- C2 (witness): `sudo rm -rf /` (here with mixed case) is blocked. -/
theorem C2_blockedCommand_witness :
    ("sudo" ∈ blockedCommands) ∧
    jsIncludes (jsToLower "SUDO rm -rf /") (jsToLower "sudo") = true ∧
    isCommandSafe "SUDO rm -rf /" = false ∧
    runCommand emptyWorld.exec "SUDO rm -rf /" =
      ({ success := false, output := none,
         error := some "Command blocked for security reasons" }, false) := by
  have h := C2_blockedCommand "SUDO rm -rf /" "sudo" emptyWorld.exec (by decide) (by decide)
  exact ⟨by decide, by decide, h.1, h.2⟩

/-- C5: model selection honors an explicit override; without an override the
light tier serves classification, the mid tier serves chat, plan and critic,
and the top tier serves the agent task; and whenever the top tier is
selected for the chat-initiated agent loop, the used model is downgraded to
the mid tier. -/
theorem C5_modelSelection :
    (∀ t, pickModel t (some ModelOverride.haiku) = MODELS Tier.haiku) ∧
    (∀ t, pickModel t (some ModelOverride.sonnet) = MODELS Tier.sonnet) ∧
    (∀ t, pickModel t (some ModelOverride.opus) = MODELS Tier.opus) ∧
    pickModel TaskType.classify none = MODELS Tier.haiku ∧
    pickModel TaskType.chat none = MODELS Tier.sonnet ∧
    pickModel TaskType.plan none = MODELS Tier.sonnet ∧
    pickModel TaskType.critic none = MODELS Tier.sonnet ∧
    pickModel TaskType.agent none = MODELS Tier.opus ∧
    (∀ o, pickModel TaskType.agent o = MODELS Tier.opus →
      chatAgentModel o = MODELS Tier.sonnet) := by
  refine ⟨fun t => by cases t <;> rfl, fun t => by cases t <;> rfl,
    fun t => by cases t <;> rfl, rfl, rfl, rfl, rfl, rfl, ?_⟩
  intro o h
  simp [chatAgentModel, h]

/-- C5 (witness): with no override the chat-initiated agent loop runs on the
mid tier, and so does an explicit opus override. -/
theorem C5_modelSelection_witness :
    chatAgentModel none = MODELS Tier.sonnet ∧
    chatAgentModel (some ModelOverride.opus) = MODELS Tier.sonnet := by
  exact ⟨C5_modelSelection.2.2.2.2.2.2.2.2 none rfl,
         C5_modelSelection.2.2.2.2.2.2.2.2 (some ModelOverride.opus) rfl⟩

/-- C10: for a guard-approved path whose basename has no extension, the
extension allow-list check of `write_file` is skipped (the empty extension
is falsy) and the write proceeds, updating the file store. -/
theorem C10_noExtensionWrite (w : World) (p content : String)
    (hsafe : isPathSafe w.root p = true) (hext : extnameOf p = "") :
    writeFileTool w p content =
      ({ success := true, output := some ("File written: " ++ p), error := none },
       { w with fs := fsSet w.fs (pathResolve w.root p) content }) := by
  simp [writeFileTool, hsafe, hext]

/-- C10 (witness): writing `Makefile`, which has no extension and is not on
the allow-list, succeeds. -/
theorem C10_noExtensionWrite_witness :
    isPathSafe emptyWorld.root "Makefile" = true ∧
    extnameOf "Makefile" = "" ∧
    ("Makefile" ∈ ALLOWED_EXTENSIONS) = False ∧
    (writeFileTool emptyWorld "Makefile" "all:").1.success = true := by
  refine ⟨by decide, by decide, by decide, ?_⟩
  rw [C10_noExtensionWrite emptyWorld "Makefile" "all:" (by decide) (by decide)]

/-- C8 (counterexample): dispatching the unknown tool name `mystery_tool`
through `mapToolToAction` and `executeAction` yields a result with
`success == true` (the dispatch maps unknown names to a `message` action,
which succeeds), contradicting the claimed `success == false`. -/
theorem C8_counterexample :
    ("mystery_tool" ∉ ["read_file", "write_file", "edit_file", "list_files",
        "search_code", "run_command"]) ∧
    (executeAction emptyWorld (mapToolToAction "mystery_tool" [])).1 =
      { success := true, output := some "Unknown tool: mystery_tool", error := none } := by
  exact ⟨by decide, rfl⟩

/-- C8 (amended): for every tool call whose name is not one of the six known
tool names, executing the call through the agent loop's dispatch yields a
`ToolResult` with `success == true` whose output reports the unknown tool,
the world is unchanged, and no exception escapes (the dispatch is a total
function). -/
theorem C8_amended_unknownTool (name : String) (input : List (String × String)) (w : World)
    (h : name ∉ ["read_file", "write_file", "edit_file", "list_files",
        "search_code", "run_command"]) :
    executeAction w (mapToolToAction name input) =
      ({ success := true, output := some ("Unknown tool: " ++ name), error := none }, w) := by
  simp only [List.mem_cons, List.not_mem_nil, or_false, not_or] at h
  obtain ⟨h1, h2, h3, h4, h5, h6⟩ := h
  have hm : mapToolToAction name input =
      { type := "message", content := some ("Unknown tool: " ++ name) } := by
    simp [mapToolToAction, h1, h2, h3, h4, h5, h6]
  rw [hm]
  rfl

/-- C8 (witness): the unknown tool `frobnicate` produces the success-shaped
message result. -/
theorem C8_amended_unknownTool_witness :
    ("frobnicate" ∉ ["read_file", "write_file", "edit_file", "list_files",
        "search_code", "run_command"]) ∧
    executeAction emptyWorld (mapToolToAction "frobnicate" []) =
      ({ success := true, output := some "Unknown tool: frobnicate", error := none },
       emptyWorld) := by
  exact ⟨by decide, C8_amended_unknownTool "frobnicate" [] emptyWorld (by decide)⟩

/-- C6: for a guard-approved, readable file, `edit_file` fails with a
descriptive error and leaves the file store unmodified when the search text
is absent or the line delta exceeds the 50-line threshold, and succeeds when
the search text is present and the delta is exactly the threshold. -/
theorem C6_editFileBoundary (w : World) (p search replace content : String)
    (hsafe : isPathSafe w.root p = true)
    (hread : fsLookup w.fs (pathResolve w.root p) = some content) :
    ((jsIncludes content search = false ∨
        deletedLinesOf search replace > (MAX_DELETE_LINES : Int)) →
      (applyDiff w p search replace).1.success = false ∧
      (applyDiff w p search replace).1.error ≠ none ∧
      (applyDiff w p search replace).2 = w) ∧
    (jsIncludes content search = true →
      deletedLinesOf search replace = (MAX_DELETE_LINES : Int) →
      (applyDiff w p search replace).1.success = true) := by
  constructor
  · rintro (hna | hdel)
    · simp [applyDiff, hsafe, hread, hna]
    · by_cases hs : jsIncludes content search
      · have hcond : deletedLinesOf search replace > (MAX_DELETE_LINES : Int) := hdel
        simp [applyDiff, hsafe, hread, hs, hcond]
      · simp [applyDiff, hsafe, hread, Bool.of_not_eq_true hs]
  · intro hs hdel
    have hnogt : ¬ deletedLinesOf search replace > (MAX_DELETE_LINES : Int) := by
      rw [hdel]
      omega
    simp [applyDiff, hsafe, hread, hs, hnogt]

/-- C6 (witness): on a 51-line file, an absent search text fails, and
replacing all 51 lines by one line (a delta of exactly 50) succeeds. -/
theorem C6_editFileBoundary_witness :
    isPathSafe w6.root "c.txt" = true ∧
    fsLookup w6.fs (pathResolve w6.root "c.txt") = some bigContent ∧
    deletedLinesOf bigContent "b" = (50 : Int) ∧
    (applyDiff w6 "c.txt" "zz" "y").1.success = false ∧
    (applyDiff w6 "c.txt" "zz" "y").2 = w6 ∧
    (applyDiff w6 "c.txt" bigContent "b").1.success = true := by
  have h1 := C6_editFileBoundary w6 "c.txt" "zz" "y" bigContent (by decide) (by decide)
  have h2 := C6_editFileBoundary w6 "c.txt" bigContent "b" bigContent (by decide) (by decide)
  have hfail := h1.1 (Or.inl (by decide))
  exact ⟨by decide, by decide, by decide, hfail.1, hfail.2.2,
         h2.2 (by decide) (by decide)⟩

/-- The walk of `listFiles` collects exactly the uncapped entry count,
cut off at 200, whenever it starts below the cap. -/
theorem walkFs_length (pfx : String) (l : List FsEntry) (files : List String) :
    files.length < 200 →
    (walkFs pfx l files).length = min (files.length + countEntries l) 200 := by
  induction pfx, l, files using walkFs.induct with
  | case1 pfx files =>
    intro h
    simp only [walkFs, countEntries]
    omega
  | case2 pfx n rest files hb ih =>
    intro h
    simp only [walkFs, countEntries]
    rw [if_pos hb, if_pos hb, ih h]
    omega
  | case3 pfx n rest files hb files1 hstop =>
    intro h
    have hstop2 : (files ++ [relOf pfx n]).length ≥ 200 := hstop
    simp only [walkFs, countEntries]
    rw [if_neg hb, if_pos hstop2, if_neg hb]
    simp only [List.length_append, List.length_singleton] at hstop2 ⊢
    omega
  | case4 pfx n rest files hb files1 hcont ih =>
    intro h
    have hcont2 : ¬ (files ++ [relOf pfx n]).length ≥ 200 := hcont
    have ih2 : (files ++ [relOf pfx n]).length < 200 →
        (walkFs pfx rest (files ++ [relOf pfx n])).length =
          min ((files ++ [relOf pfx n]).length + countEntries rest) 200 := ih
    simp only [walkFs, countEntries]
    rw [if_neg hb, if_neg hcont2, if_neg hb, ih2 (by omega)]
    simp only [List.length_append, List.length_singleton]
    omega
  | case5 pfx n children rest files hb ih =>
    intro h
    simp only [walkFs, countEntries]
    rw [if_pos hb, if_pos hb, ih h]
    omega
  | case6 pfx n children rest files hb files1 files2 hstop ih =>
    intro h
    have hstop2 : (if (files ++ [relOf pfx n ++ "/"]).length < 200
        then walkFs (relOf pfx n) children (files ++ [relOf pfx n ++ "/"])
        else files ++ [relOf pfx n ++ "/"]).length ≥ 200 := hstop
    have ih2 : (files ++ [relOf pfx n ++ "/"]).length < 200 →
        (walkFs (relOf pfx n) children (files ++ [relOf pfx n ++ "/"])).length =
          min ((files ++ [relOf pfx n ++ "/"]).length + countEntries children) 200 := ih
    simp only [walkFs, countEntries]
    rw [if_neg hb, if_pos hstop2, if_neg hb]
    by_cases hlt : (files ++ [relOf pfx n ++ "/"]).length < 200
    · rw [if_pos hlt] at hstop2 ⊢
      rw [ih2 hlt] at hstop2 ⊢
      simp only [List.length_append, List.length_singleton] at hstop2 ⊢
      omega
    · rw [if_neg hlt] at hstop2 ⊢
      simp only [List.length_append, List.length_singleton] at hstop2 hlt ⊢
      omega
  | case7 pfx n children rest files hb files1 files2 hcont ihc0 ihc1 ihr =>
    intro h
    have hcont2 : ¬ (if (files ++ [relOf pfx n ++ "/"]).length < 200
        then walkFs (relOf pfx n) children (files ++ [relOf pfx n ++ "/"])
        else files ++ [relOf pfx n ++ "/"]).length ≥ 200 := hcont
    have ihc2 : (files ++ [relOf pfx n ++ "/"]).length < 200 →
        (walkFs (relOf pfx n) children (files ++ [relOf pfx n ++ "/"])).length =
          min ((files ++ [relOf pfx n ++ "/"]).length + countEntries children) 200 := ihc0
    have ihr2 : (if (files ++ [relOf pfx n ++ "/"]).length < 200
          then walkFs (relOf pfx n) children (files ++ [relOf pfx n ++ "/"])
          else files ++ [relOf pfx n ++ "/"]).length < 200 →
        (walkFs pfx rest (if (files ++ [relOf pfx n ++ "/"]).length < 200
          then walkFs (relOf pfx n) children (files ++ [relOf pfx n ++ "/"])
          else files ++ [relOf pfx n ++ "/"])).length =
          min ((if (files ++ [relOf pfx n ++ "/"]).length < 200
          then walkFs (relOf pfx n) children (files ++ [relOf pfx n ++ "/"])
          else files ++ [relOf pfx n ++ "/"]).length + countEntries rest) 200 := ihr
    simp only [walkFs, countEntries]
    rw [if_neg hb, if_neg hcont2, if_neg hb]
    by_cases hlt : (files ++ [relOf pfx n ++ "/"]).length < 200
    · rw [if_pos hlt] at hcont2 ihr2 ⊢
      rw [ihc2 hlt] at hcont2 ihr2
      rw [ihr2 (by omega)]
      simp only [List.length_append, List.length_singleton] at hcont2 ⊢
      omega
    · rw [if_neg hlt] at hcont2
      exact absurd (by omega : (files ++ [relOf pfx n ++ "/"]).length < 200) hlt

/-- C7: the `listFiles` walk never returns more than 200 entries, and on a
tree with more than 200 non-denied entries it returns exactly 200. -/
theorem C7_listFilesCap (t : List FsEntry) :
    (listFilesEntries t).length ≤ 200 ∧
    (200 < countEntries t → (listFilesEntries t).length = 200) := by
  have h := walkFs_length "" t [] (by simp)
  have h2 : (listFilesEntries t).length = min (countEntries t) 200 := by
    simpa [listFilesEntries] using h
  constructor
  · rw [h2]; omega
  · intro hc; rw [h2]; omega

/-- The uncapped entry count of a flat tree of `n` files named `f`. -/
theorem countEntries_replicate_file (n : Nat) :
    countEntries (List.replicate n (FsEntry.file "f")) = n := by
  have hbf : isBlockedName "f" = false := by decide
  induction n with
  | zero => simp [countEntries]
  | succ k ih =>
    simp [List.replicate, countEntries, ih, hbf]
    omega

/-- C7 (witness): a flat tree with 201 files is listed as exactly 200
entries. -/
theorem C7_listFilesCap_witness :
    200 < countEntries bigTree ∧ (listFilesEntries bigTree).length = 200 := by
  have hc : countEntries bigTree = 201 := countEntries_replicate_file 201
  exact ⟨by omega, (C7_listFilesCap bigTree).2 (by omega)⟩

/-- C9: `executeActions` runs the actions sequentially in list order and
stops at the first action of type other than `message` whose result fails:
that failed result is the last element of the returned list and no later
action is ever executed. -/
theorem C9_sequentialStop (as : List AgentAction) (w : World) :
    stopsAtFirstFailure as (executeActions w as) := by
  induction as generalizing w with
  | nil => simp [executeActions, stopsAtFirstFailure]
  | cons a rest ih =>
    by_cases hstop : (!(executeAction w a).1.success) = true ∧ a.type ≠ "message"
    · have hrun : executeActions w (a :: rest) =
          ⟨[(executeAction w a).1], (executeAction w a).2, [a]⟩ := by
        simp only [executeActions]
        rw [if_pos hstop]
      rw [hrun]
      refine ⟨by simp, by simp, ?_, ?_⟩
      · intro i hi
        simp at hi
      · intro hlt
        refine ⟨(executeAction w a).1, a, by simp, by simp, ?_, hstop.2⟩
        have := hstop.1
        simp only [Bool.not_eq_true'] at this
        exact this
    · have hrun : executeActions w (a :: rest) =
          ⟨(executeAction w a).1 :: (executeActions (executeAction w a).2 rest).results,
           (executeActions (executeAction w a).2 rest).world,
           a :: (executeActions (executeAction w a).2 rest).trace⟩ := by
        simp only [executeActions]
        rw [if_neg hstop]
      have hna : (executeAction w a).1.success = true ∨ a.type = "message" := by
        rcases Bool.eq_false_or_eq_true (executeAction w a).1.success with hs | hs
        · exact Or.inl hs
        · right
          by_contra hm
          exact hstop ⟨by rw [hs]; rfl, hm⟩
      obtain ⟨ht, hlen, hmid, hlast⟩ := ih (executeAction w a).2
      rw [hrun]
      refine ⟨?_, ?_, ?_, ?_⟩
      · simp only [List.length_cons, List.take_succ_cons]
        rw [ht]
      · simp only [List.length_cons, List.length_cons]
        simpa using hlen
      · intro i hi
        cases i with
        | zero =>
          rcases hna with hs | hm
          · left; simp [hs]
          · right; simp [hm]
        | succ j =>
          have hj : j + 1 < (executeActions (executeAction w a).2 rest).results.length := by
            simp at hi
            omega
          simpa using hmid j hj
      · intro hlt
        have hlt2 : (executeActions (executeAction w a).2 rest).results.length <
            rest.length := by
          simp at hlt
          omega
        obtain ⟨r', a', hl, hidx, hf, hm⟩ := hlast hlt2
        have hne : (executeActions (executeAction w a).2 rest).results ≠ [] := by
          intro hnil
          rw [hnil] at hl
          simp at hl
        refine ⟨r', a', ?_, ?_, hf, hm⟩
        · obtain ⟨x, xs, hx⟩ := List.exists_cons_of_ne_nil hne
          rw [hx] at hl ⊢
          rw [List.getLast?_cons_cons]
          exact hl
        · have hpos : 0 < (executeActions (executeAction w a).2 rest).results.length :=
            List.length_pos.mpr hne
          obtain ⟨m, hm2⟩ :
              ∃ m, (executeActions (executeAction w a).2 rest).results.length = m + 1 :=
            ⟨(executeActions (executeAction w a).2 rest).results.length - 1, by omega⟩
          have hm3 : (executeActions (executeAction w a).2 rest).results.length - 1 = m := by
            omega
          simp only [List.length_cons, Nat.add_sub_cancel]
          rw [hm2, List.getElem?_cons_succ]
          rw [hm3] at hidx
          exact hidx

/-- C9 (witness): in a three-action batch whose second action is a blocked
command, exactly the first two actions are executed and the trace matches
the results. -/
theorem C9_sequentialStop_witness :
    (executeActions emptyWorld c9Actions).trace =
      c9Actions.take (executeActions emptyWorld c9Actions).results.length ∧
    (executeActions emptyWorld c9Actions).results.length = 2 ∧
    c9Actions.length = 3 := by
  exact ⟨(C9_sequentialStop c9Actions emptyWorld).1, by decide, by decide⟩

/-- Processing blocks accumulates the tool-use flag: the result flag is the
seed flag or the presence of a tool-use block. -/
theorem processBlocks_hasToolUse (blocks : List CBlock) (acc : StepAcc) :
    (processBlocks blocks acc).hasToolUse =
      (acc.hasToolUse || blocks.any isToolUseBlock) := by
  induction blocks generalizing acc with
  | nil => simp [processBlocks]
  | cons b rest ih =>
    cases b with
    | text s => simp [processBlocks, ih, isToolUseBlock]
    | toolUse id name input => simp [processBlocks, ih, isToolUseBlock]

/-- Processing blocks only appends non-terminal events (text, tool-use and
tool-result events) to the stream. -/
theorem processBlocks_events (blocks : List CBlock) (acc : StepAcc) :
    ∃ new, (processBlocks blocks acc).events = acc.events ++ new ∧
      noTerm new = true := by
  induction blocks generalizing acc with
  | nil => exact ⟨[], by simp [processBlocks], rfl⟩
  | cons b rest ih =>
    cases b with
    | text s =>
      obtain ⟨new, he, hn⟩ := ih
        { acc with fullContent := acc.fullContent ++ s,
                   events := acc.events ++ [SEvent.textEv s] }
      refine ⟨SEvent.textEv s :: new, ?_, ?_⟩
      · simp only [processBlocks]
        rw [he]
        simp
      · simpa [noTerm, isTerminalEv] using hn
    | toolUse id name input =>
      obtain ⟨new, he, hn⟩ := ih
        { hasToolUse := true,
          fullContent := acc.fullContent,
          events := acc.events ++
            [SEvent.toolUseEv name input,
             SEvent.toolResultEv name
               (executeAction acc.world (mapToolToAction name input)).1.success
               (executeAction acc.world (mapToolToAction name input)).1.error],
          world := (executeAction acc.world (mapToolToAction name input)).2 }
      refine ⟨SEvent.toolUseEv name input ::
        SEvent.toolResultEv name
          (executeAction acc.world (mapToolToAction name input)).1.success
          (executeAction acc.world (mapToolToAction name input)).1.error :: new, ?_, ?_⟩
      · simp only [processBlocks]
        rw [he]
        simp
      · simpa [noTerm, isTerminalEv] using hn

/-- One loop step on a response that contains a tool call and does not stop
with `end_turn`: the loop continues with the accumulated state. -/
theorem agentLoopGo_toolStep (modelFn : Nat → Except Unit MResponse)
    (maxSteps fuel step : Nat) (fc : String) (evs : List SEvent) (w : World)
    (r : MResponse) (hok : modelFn (step + 1) = Except.ok r)
    (htool : hasToolBlocks r = true) (hstop : r.stop_reason ≠ "end_turn") :
    agentLoopGo modelFn maxSteps (fuel + 1) step fc evs w =
      agentLoopGo modelFn maxSteps fuel (step + 1)
        (processBlocks r.content ⟨false, fc, evs, w⟩).fullContent
        (processBlocks r.content ⟨false, fc, evs, w⟩).events
        (processBlocks r.content ⟨false, fc, evs, w⟩).world := by
  have hacc : (processBlocks r.content ⟨false, fc, evs, w⟩).hasToolUse = true := by
    rw [processBlocks_hasToolUse]
    simp only [hasToolBlocks] at htool
    simp [htool]
  simp only [agentLoopGo, hok]
  simp [hacc, hstop]

/-- One loop step on a response without tool calls: the loop returns with a
`done` event that carries no step-limit flag. -/
theorem agentLoopGo_noToolStop (modelFn : Nat → Except Unit MResponse)
    (maxSteps fuel step : Nat) (fc : String) (evs : List SEvent) (w : World)
    (r : MResponse) (hok : modelFn (step + 1) = Except.ok r)
    (hnotool : hasToolBlocks r = false) :
    agentLoopGo modelFn maxSteps (fuel + 1) step fc evs w =
      ⟨(processBlocks r.content ⟨false, fc, evs, w⟩).events ++
         [SEvent.doneEv (processBlocks r.content ⟨false, fc, evs, w⟩).fullContent
           (step + 1) none],
       (processBlocks r.content ⟨false, fc, evs, w⟩).fullContent, step + 1,
       (processBlocks r.content ⟨false, fc, evs, w⟩).world⟩ := by
  have hacc : (processBlocks r.content ⟨false, fc, evs, w⟩).hasToolUse = false := by
    rw [processBlocks_hasToolUse]
    simp only [hasToolBlocks] at hnotool
    simp [hnotool]
  simp only [agentLoopGo, hok]
  simp [hacc]

/-- When the model answers every remaining step with a tool call (and never
`end_turn`), the loop runs out of fuel and finishes with the step-limit
flag. -/
theorem agentLoopGo_allTools (modelFn : Nat → Except Unit MResponse)
    (maxSteps : Nat) :
    ∀ (fuel step : Nat) (fc : String) (evs : List SEvent) (w : World),
    (∀ s, step < s → s ≤ step + fuel → toolResponseOk modelFn s) →
    ∃ evs2 fc2 w2,
      agentLoopGo modelFn maxSteps fuel step fc evs w =
        ⟨evs2 ++ [SEvent.doneEv fc2 (step + fuel)
            (some (decide (maxSteps ≤ step + fuel)))],
         fc2, step + fuel, w2⟩ := by
  intro fuel
  induction fuel with
  | zero =>
    intro step fc evs w _
    exact ⟨evs, fc, w, by simp [agentLoopGo]⟩
  | succ n ih =>
    intro step fc evs w h
    obtain ⟨r, hok, htool, hstop⟩ := h (step + 1) (by omega) (by omega)
    rw [agentLoopGo_toolStep modelFn maxSteps n step fc evs w r hok htool hstop]
    obtain ⟨evs2, fc2, w2, heq⟩ := ih (step + 1)
      (processBlocks r.content ⟨false, fc, evs, w⟩).fullContent
      (processBlocks r.content ⟨false, fc, evs, w⟩).events
      (processBlocks r.content ⟨false, fc, evs, w⟩).world
      (fun s hs1 hs2 => h s (by omega) (by omega))
    have e : step + 1 + n = step + (n + 1) := by omega
    rw [e] at heq
    exact ⟨evs2, fc2, w2, heq⟩

/-- When the model answers with tool calls up to the last remaining step and
then with a response without tool calls, the loop completes at the last step
with a `done` event carrying no step-limit flag. -/
theorem agentLoopGo_thenStop (modelFn : Nat → Except Unit MResponse)
    (maxSteps : Nat) :
    ∀ (fuel step : Nat) (fc : String) (evs : List SEvent) (w : World),
    1 ≤ fuel →
    (∀ s, step < s → s < step + fuel → toolResponseOk modelFn s) →
    (∃ r, modelFn (step + fuel) = Except.ok r ∧ hasToolBlocks r = false) →
    ∃ evs2 fc2 w2,
      agentLoopGo modelFn maxSteps fuel step fc evs w =
        ⟨evs2 ++ [SEvent.doneEv fc2 (step + fuel) none], fc2, step + fuel, w2⟩ := by
  intro fuel
  induction fuel with
  | zero =>
    intro step fc evs w h1
    exact absurd h1 (by omega)
  | succ n ih =>
    intro step fc evs w h1 hmid hlast
    rcases Nat.eq_zero_or_pos n with hn | hn
    · subst hn
      obtain ⟨r, hok, hnotool⟩ := hlast
      have hok1 : modelFn (step + 1) = Except.ok r := by simpa using hok
      rw [agentLoopGo_noToolStop modelFn maxSteps 0 step fc evs w r hok1 hnotool]
      exact ⟨(processBlocks r.content ⟨false, fc, evs, w⟩).events,
        (processBlocks r.content ⟨false, fc, evs, w⟩).fullContent,
        (processBlocks r.content ⟨false, fc, evs, w⟩).world, rfl⟩
    · obtain ⟨r, hok, htool, hstop⟩ := hmid (step + 1) (by omega) (by omega)
      rw [agentLoopGo_toolStep modelFn maxSteps n step fc evs w r hok htool hstop]
      have e : step + (n + 1) = (step + 1) + n := by omega
      rw [e] at hlast
      obtain ⟨evs2, fc2, w2, heq⟩ := ih (step + 1)
        (processBlocks r.content ⟨false, fc, evs, w⟩).fullContent
        (processBlocks r.content ⟨false, fc, evs, w⟩).events
        (processBlocks r.content ⟨false, fc, evs, w⟩).world
        (by omega)
        (fun s hs1 hs2 => hmid s (by omega) (by omega))
        hlast
      rw [← e] at heq
      exact ⟨evs2, fc2, w2, heq⟩

/-- C3 (counterexample): with a step budget of 2 and a model response that
contains a tool call on every step but carries stop reason `end_turn`, the
loop terminates at step 1 with a plain `done` event (no step-limit flag) —
not in StepLimitReached at step 2 as the claim requires. -/
theorem C3_counterexample :
    hasToolBlocks ⟨[CBlock.toolUse "1" "run_command" [("command", "ls")]],
      "end_turn"⟩ = true ∧
    c3EndTurn 1 = Except.ok ⟨[CBlock.toolUse "1" "run_command" [("command", "ls")]],
      "end_turn"⟩ ∧
    c3EndTurn 2 = Except.ok ⟨[CBlock.toolUse "1" "run_command" [("command", "ls")]],
      "end_turn"⟩ ∧
    (runAgentLoop c3EndTurn 2 emptyWorld).steps = 1 ∧
    (runAgentLoop c3EndTurn 2 emptyWorld).events.getLast? =
      some (SEvent.doneEv "" 1 none) := by
  exact ⟨rfl, rfl, rfl, rfl, rfl⟩

/-- C3 (amended): provided no response signals `end_turn`, the loop with
step budget `maxSteps` ends in StepLimitReached (final `done` event with the
flag set true at step `maxSteps`) when every response through step
`maxSteps` contains a tool call, and ends Completed at step `maxSteps`
(final `done` event without the flag) when the first `maxSteps - 1`
responses contain a tool call and the response at step `maxSteps` contains
none. -/
theorem C3_stepBudget (modelFn : Nat → Except Unit MResponse) (maxSteps : Nat)
    (w : World) :
    ((∀ s, 1 ≤ s → s ≤ maxSteps → toolResponseOk modelFn s) →
      ∃ evs fc w2, runAgentLoop modelFn maxSteps w =
        ⟨evs ++ [SEvent.doneEv fc maxSteps (some true)], fc, maxSteps, w2⟩) ∧
    (1 ≤ maxSteps →
      (∀ s, 1 ≤ s → s < maxSteps → toolResponseOk modelFn s) →
      (∃ r, modelFn maxSteps = Except.ok r ∧ hasToolBlocks r = false) →
      ∃ evs fc w2, runAgentLoop modelFn maxSteps w =
        ⟨evs ++ [SEvent.doneEv fc maxSteps none], fc, maxSteps, w2⟩) := by
  constructor
  · intro h
    obtain ⟨evs2, fc2, w2, heq⟩ := agentLoopGo_allTools modelFn maxSteps maxSteps 0 "" [] w
      (fun s hs1 hs2 => h s (by omega) (by omega))
    have e2 : decide (maxSteps ≤ 0 + maxSteps) = true := by simp
    rw [e2] at heq
    have e1 : 0 + maxSteps = maxSteps := by omega
    rw [e1] at heq
    exact ⟨evs2, fc2, w2, heq⟩
  · intro h1 hmid hlast
    obtain ⟨evs2, fc2, w2, heq⟩ := agentLoopGo_thenStop modelFn maxSteps maxSteps 0 "" [] w
      (by omega)
      (fun s hs1 hs2 => hmid s (by omega) (by omega))
      (by simpa using hlast)
    have e1 : 0 + maxSteps = maxSteps := by omega
    rw [e1] at heq
    exact ⟨evs2, fc2, w2, heq⟩

/-- C3 (witness): with a budget of 2 steps, an all-tool-calls oracle ends in
StepLimitReached at step 2, and a one-tool-call-then-text oracle ends
Completed at step 2. -/
theorem C3_stepBudget_witness :
    (∃ evs fc w2, runAgentLoop c3AllTools 2 emptyWorld =
        ⟨evs ++ [SEvent.doneEv fc 2 (some true)], fc, 2, w2⟩) ∧
    (∃ evs fc w2, runAgentLoop c3ThenStop 2 emptyWorld =
        ⟨evs ++ [SEvent.doneEv fc 2 none], fc, 2, w2⟩) := by
  constructor
  · exact (C3_stepBudget c3AllTools 2 emptyWorld).1
      (fun s hs1 hs2 =>
        ⟨⟨[CBlock.toolUse "1" "run_command" [("command", "ls")]], "tool_use"⟩,
         rfl, rfl, by decide⟩)
  · refine (C3_stepBudget c3ThenStop 2 emptyWorld).2 (by omega) ?_ ?_
    · intro s hs1 hs2
      have hs : s = 1 := by omega
      subst hs
      exact ⟨⟨[CBlock.toolUse "1" "run_command" [("command", "ls")]], "tool_use"⟩,
        rfl, rfl, by decide⟩
    · exact ⟨⟨[CBlock.text "done"], "end_turn"⟩, rfl, rfl⟩

/-- Every run of the loop body produces a stream made of non-terminal
events followed either by one final `done` event, or by one `error` event
and then one final `done` event. -/
theorem agentLoopGo_cleanShape (modelFn : Nat → Except Unit MResponse)
    (maxSteps : Nat) :
    ∀ (fuel step : Nat) (fc : String) (evs : List SEvent) (w : World),
    ∃ pre, noTerm pre = true ∧
      ((∃ fc2 st b, (agentLoopGo modelFn maxSteps fuel step fc evs w).events =
          evs ++ pre ++ [SEvent.doneEv fc2 st b]) ∨
       (∃ fc2 st b s, (agentLoopGo modelFn maxSteps fuel step fc evs w).events =
          evs ++ pre ++ [SEvent.errorEv s, SEvent.doneEv fc2 st b])) := by
  intro fuel
  induction fuel with
  | zero =>
    intro step fc evs w
    exact ⟨[], rfl, Or.inl ⟨fc, step, some (decide (maxSteps ≤ step)), by
      simp [agentLoopGo]⟩⟩
  | succ n ih =>
    intro step fc evs w
    cases hok : modelFn (step + 1) with
    | error e =>
      refine ⟨[], rfl, Or.inr ⟨fc, step + 1, some (decide (maxSteps ≤ step + 1)),
        step + 1, ?_⟩⟩
      simp only [agentLoopGo, hok]
      simp
    | ok r =>
      obtain ⟨new, hev, hnew⟩ := processBlocks_events r.content ⟨false, fc, evs, w⟩
      by_cases htool : (processBlocks r.content ⟨false, fc, evs, w⟩).hasToolUse = true
      · by_cases hstop : r.stop_reason = "end_turn"
        · refine ⟨new, hnew, Or.inl
            ⟨(processBlocks r.content ⟨false, fc, evs, w⟩).fullContent, step + 1, none, ?_⟩⟩
          simp only [agentLoopGo, hok]
          simp [htool, hstop, hev]
        · obtain ⟨pre2, hpre2, hcase⟩ := ih (step + 1)
            (processBlocks r.content ⟨false, fc, evs, w⟩).fullContent
            (processBlocks r.content ⟨false, fc, evs, w⟩).events
            (processBlocks r.content ⟨false, fc, evs, w⟩).world
          have hstep := agentLoopGo_toolStep modelFn maxSteps n step fc evs w r hok
            (by rw [processBlocks_hasToolUse] at htool; simpa [hasToolBlocks] using htool)
            hstop
          refine ⟨new ++ pre2, ?_, ?_⟩
          · simp only [noTerm, List.all_append] at hnew hpre2 ⊢
            simp [hnew, hpre2]
          · rcases hcase with ⟨fc2, st, b, he⟩ | ⟨fc2, st, b, s, he⟩
            · left
              refine ⟨fc2, st, b, ?_⟩
              rw [hstep, he, hev]
              simp
            · right
              refine ⟨fc2, st, b, s, ?_⟩
              rw [hstep, he, hev]
              simp
      · refine ⟨new, hnew, Or.inl
          ⟨(processBlocks r.content ⟨false, fc, evs, w⟩).fullContent, step + 1, none, ?_⟩⟩
        have hacc : (processBlocks r.content ⟨false, fc, evs, w⟩).hasToolUse = false := by
          rcases Bool.eq_false_or_eq_true
            (processBlocks r.content ⟨false, fc, evs, w⟩).hasToolUse with hs | hs
          · exact absurd hs htool
          · exact hs
        simp only [agentLoopGo, hok]
        simp [hacc, hev]

/-- C4 (counterexample): when the first model call throws, the loop emits an
`error` event and then still emits a final `done` event — an event follows
the error event, so an error event is not terminal. -/
theorem C4_counterexample :
    (runAgentLoop c4Err 2 emptyWorld).events =
      [SEvent.errorEv 1, SEvent.doneEv "" 1 (some false)] := by
  rfl

/-- C4 (amended): in every run of the agent loop the stream consists of
non-terminal events followed either by exactly one final `done` event, or
by one `error` event immediately followed by exactly one final `done`
event.  A `done` event is terminal; an `error` event is followed by exactly
one further event, the final `done`. -/
theorem C4_terminalEvents (modelFn : Nat → Except Unit MResponse)
    (maxSteps : Nat) (w : World) :
    cleanShape (runAgentLoop modelFn maxSteps w).events := by
  obtain ⟨pre, hpre, hcase⟩ := agentLoopGo_cleanShape modelFn maxSteps maxSteps 0 "" []  w
  refine ⟨pre, hpre, ?_⟩
  rcases hcase with ⟨fc2, st, b, he⟩ | ⟨fc2, st, b, s, he⟩
  · left
    exact ⟨fc2, st, b, by simpa [runAgentLoop] using he⟩
  · right
    exact ⟨fc2, st, b, s, by simpa [runAgentLoop] using he⟩

end CodeAgent
